import Mathlib

/-!
Verification of the docs.rs source-code browser (`src/web/source.rs`).

Strings are modelled as lists of characters (`Str`); Rust `str` comparison
is code-point lexicographic, which coincides with `Char` order on these
lists.  Database rows, the connection pool and the blob store are external
boundaries: the manifest (the decoded `releases.files` JSON array) and the
result of the storage fetch are passed to the modelled functions as values.
-/

/-- Strings as lists of characters (Rust `str` by code points). -/
abbrev Str := List Char

/-- Lexicographic three-way comparison of strings by code point, the
behaviour of Rust `str::cmp` (UTF-8 byte order equals code-point order). -/
def strCmp : Str → Str → Ordering
  | [], [] => Ordering.eq
  | [], _ :: _ => Ordering.lt
  | _ :: _, [] => Ordering.gt
  | x :: xs, y :: ys =>
    if x < y then Ordering.lt
    else if y < x then Ordering.gt
    else strCmp xs ys

/-- Rust `str::to_lowercase`, modelled as per-character case folding. -/
def strToLower (s : Str) : Str := s.map Char.toLower

/-- Fuelled worker for `removeAll`.  Each step either consumes one character
or, on a match of the (nonempty) pattern, at least one character, so fuel
equal to the length of the string is always sufficient. -/
def removeAllAux : Nat → Str → Str → Str
  | _, [], _ => []
  | 0, s, _ => s
  | fuel + 1, c :: rest, pat =>
    if pat ≠ [] ∧ pat.isPrefixOf (c :: rest) then
      removeAllAux fuel ((c :: rest).drop pat.length) pat
    else
      c :: removeAllAux fuel rest pat

/-- Rust `str::replace(pat, "")`: delete every non-overlapping occurrence of
`pat`, scanning left to right.  For the empty pattern Rust inserts the
replacement at every boundary, which for an empty replacement is the
identity, as here. -/
def removeAll (s pat : Str) : Str := removeAllAux s.length s pat

/-- Whether `pat` occurs as a contiguous substring of `s`. -/
def hasSub (s pat : Str) : Bool :=
  match s with
  | [] => pat.isEmpty
  | _ :: rest => pat.isPrefixOf s || hasSub rest pat

/-- A source file's name and mime type (struct `File` in `source.rs`).
Derived equality is over the `(name, mime)` pair, as in the Rust
`PartialEq` derive. -/
structure File where
  name : Str
  mime : Str
deriving DecidableEq, Repr

/-- The literal marker path `".cargo-ok"` skipped by `FileList::from_path`. -/
def cargoOk : Str := ".cargo-ok".toList

/-- The sentinel mime value `"dir"` used for synthetic directory entries. -/
def dirMime : Str := "dir".toList

/-- The comparator passed to `sort_by` in `FileList::from_path`:
directories first, then case-insensitive name order. -/
def fileCmp (a b : File) : Ordering :=
  if a.mime = dirMime ∧ b.mime ≠ dirMime then Ordering.lt
  else if a.mime ≠ dirMime ∧ b.mime = dirMime then Ordering.gt
  else strCmp (strToLower a.name) (strToLower b.name)

/-- Insert into a sorted list, after every element strictly smaller under
`fileCmp`: the insertion step of a stable sort. -/
def insertS (a : File) : List File → List File
  | [] => [a]
  | b :: l => if fileCmp a b = Ordering.gt then b :: insertS a l else a :: b :: l

/-- Stable sort by `fileCmp`, modelling `Vec::sort_by` (stable sorts under
a fixed total preorder comparator agree on their output). -/
def sortFiles : List File → List File
  | [] => []
  | a :: l => insertS a (sortFiles l)

/-- The per-entry listing candidate built inside the loop of
`FileList::from_path`: the path with every occurrence of `req_path`
deleted (Rust `path.replace(&req_path, "")`), split on `'/'`; more than
one segment makes a synthetic directory entry, exactly one keeps the
true mime. -/
def candidate (req_path mime path : Str) : File :=
  let path2 := removeAll path req_path
  let path_splited := path2.splitOn '/'
  { name := path_splited.headI
    mime := if path_splited.length > 1 then dirMime else mime }

/-- One iteration of the manifest loop of `FileList::from_path`: skip the
literal `.cargo-ok` path, keep entries whose path starts with `req_path`,
and push the candidate unless it is already present. -/
def from_path_step (req_path : Str) (acc : List File) (e : Str × Str) : List File :=
  if e.2 = cargoOk then acc
  else if req_path.isPrefixOf e.2 then
    let f := candidate req_path e.1 e.2
    if f ∈ acc then acc else acc ++ [f]
  else acc

/-- `FileList::from_path`, modelled on the decoded manifest (the
`releases.files` JSON array as `(mime, path)` pairs).  The database row
lookup and the `MetaData` assembly are the storage boundary; the function
returns the `files` field of the `FileList`. -/
def from_path (files : List (Str × Str)) (req_path : Str) : Option (List File) :=
  let file_list := files.foldl (from_path_step req_path) []
  if file_list = [] then none else some (sortFiles file_list)

/-- A decoder for UTF-8 byte sequences, the boundary behaviour of Rust
`String::from_utf8` (RFC 3629: continuation ranges, no overlong forms, no
surrogates, maximum U+10FFFF).  Returns `none` exactly on invalid input. -/
def utf8Decode : List Nat → Option Str
  | [] => some []
  | b :: rest =>
    if b < 0x80 then (utf8Decode rest).map (fun cs => Char.ofNat b :: cs)
    else if b < 0xC2 then none
    else if b < 0xE0 then
      match rest with
      | b1 :: rest2 =>
        if 0x80 ≤ b1 ∧ b1 < 0xC0 then
          (utf8Decode rest2).map (fun cs => Char.ofNat ((b - 0xC0) * 0x40 + (b1 - 0x80)) :: cs)
        else none
      | [] => none
    else if b < 0xF0 then
      match rest with
      | b1 :: b2 :: rest2 =>
        if (0x80 ≤ b1 ∧ b1 < 0xC0 ∧ 0x80 ≤ b2 ∧ b2 < 0xC0) ∧
            ¬(b = 0xE0 ∧ b1 < 0xA0) ∧ ¬(b = 0xED ∧ 0xA0 ≤ b1) then
          (utf8Decode rest2).map
            (fun cs => Char.ofNat ((b - 0xE0) * 0x1000 + (b1 - 0x80) * 0x40 + (b2 - 0x80)) :: cs)
        else none
      | _ => none
    else if b < 0xF5 then
      match rest with
      | b1 :: b2 :: b3 :: rest2 =>
        if (0x80 ≤ b1 ∧ b1 < 0xC0 ∧ 0x80 ≤ b2 ∧ b2 < 0xC0 ∧ 0x80 ≤ b3 ∧ b3 < 0xC0) ∧
            ¬(b = 0xF0 ∧ b1 < 0x90) ∧ ¬(b = 0xF4 ∧ 0x90 ≤ b1) then
          (utf8Decode rest2).map
            (fun cs => Char.ofNat ((b - 0xF0) * 0x40000 + (b1 - 0x80) * 0x1000 +
              (b2 - 0x80) * 0x40 + (b3 - 0x80)) :: cs)
        else none
      | _ => none
    else none

/-- A blob from the object store (`storage.fetch_source_file` result):
path, mime type and raw content bytes.  `Blob::is_empty` is emptiness of
the content. -/
structure Blob where
  path : Str
  mime : Str
  content : List Nat
deriving DecidableEq, Repr

/-- The two success variants of version resolution used by the handler
(`MatchSemver` in `web`, outside this excerpt): an exact stored release,
or a release found through a semver range.  Each carries the version
string and the release id (the id is never read by the handler). -/
inductive MatchSemver where
  | Exact : Str × Int → MatchSemver
  | Semver : Str × Int → MatchSemver
deriving DecidableEq, Repr

/-- The result of `match_version` as consumed by the handler: an optional
`-`/`_`-corrected crate name plus the version match. -/
structure MatchVersion where
  corrected_name : Option Str
  version : MatchSemver
deriving DecidableEq, Repr

/-- The template data of the rendered page (struct `SourcePage`). -/
structure SourcePage where
  file_list : List File
  show_parent_link : Bool
  file_content : Option Str
  is_rust_source : Bool
deriving DecidableEq, Repr

/-- The four ways `source_browser_handler` can terminate: an HTTP redirect
to the given URL path, a raw byte stream of a blob served with its own
mime type (`DbFile(blob).serve()`), a `Nope::ResourceNotFound` error, or
the rendered listing page. -/
inductive SourceHandlerResult where
  | Redirect : Str → SourceHandlerResult
  | Passthrough : Blob → SourceHandlerResult
  | NotFound : SourceHandlerResult
  | Page : SourcePage → SourceHandlerResult
deriving DecidableEq, Repr

/-- Join path segments with `'/'` (Rust `Vec::join("/")`). -/
def joinSlash (l : List Str) : Str := List.intercalate ['/'] l

/-- Blank the final segment when it is nonempty: the
`if let Some(last) = req_path.last_mut() { if !last.is_empty() { *last = "" } }`
step of the handler. -/
def blankLast : List Str → List Str
  | [] => []
  | [x] => [if x.isEmpty then x else ([] : Str)]
  | x :: y :: rest => x :: blankLast (y :: rest)

/-- The two derived paths of the handler: the directory path for
`FileList::from_path` (final segment blanked, joined, and every occurrence
of `"{crate_name}/{version}/"` deleted by `str::replace`) and the file
path for the storage fetch (the full remainder joined). -/
def derived_paths (url_path : List Str) (crate_name version : Str) : Str × Str :=
  let req_path := url_path.drop 4
  let file_path := joinSlash req_path
  let dir_path :=
    removeAll (joinSlash (blankLast req_path)) (crate_name ++ ['/'] ++ version ++ ['/'])
  (dir_path, file_path)

/-- The redirect URL built in the `MatchSemver::Semver` arm:
`format!("{}/crate/{}/{}/source/{}", base, name, version, req_path.join("/"))`
with the scheme-and-host base (`redirect_base`) left to the HTTP boundary. -/
def redirect_url (crate_name version : Str) (req_path : List Str) : Str :=
  "/crate/".toList ++ crate_name ++ "/".toList ++ version ++
    "/source/".toList ++ joinSlash req_path

/-- The tail of the handler: build the listing for the directory path and
either fail with `Nope::ResourceNotFound` or render the page. -/
def finish_page (files : List (Str × Str)) (req_path : Str)
    (file_content : Option Str) (is_rust_source : Bool) : SourceHandlerResult :=
  match from_path files req_path with
  | none => SourceHandlerResult.NotFound
  | some file_list =>
    SourceHandlerResult.Page
      { file_list := file_list
        show_parent_link := !req_path.isEmpty
        file_content := file_content
        is_rust_source := is_rust_source }

/-- `source_browser_handler`, modelled on its external query results:
`url_path` is `req.url.path()`, `crate_name0` the router's `name`
parameter, `v` the result of `match_version`, `files` the manifest of the
resolved release, and `fetch` the result `storage.fetch_source_file(..).ok()`
for the derived file path (the archive-storage flag is forwarded opaquely
inside that query). -/
def source_browser_handler (url_path : List Str) (crate_name0 : Str)
    (v : MatchVersion) (files : List (Str × Str)) (fetch : Option Blob) :
    SourceHandlerResult :=
  let crate_name := v.corrected_name.getD crate_name0
  match v.version with
  | MatchSemver.Semver (version, _) =>
    SourceHandlerResult.Redirect (redirect_url crate_name version (url_path.drop 4))
  | MatchSemver.Exact (version, _) =>
    let dp := derived_paths url_path crate_name version
    let req_path := dp.1
    let file_path := dp.2
    let blob := if ¬ (['/'] : Str).isSuffixOf file_path then fetch else none
    match blob with
    | some blob =>
      if ¬ ("text".toList).isPrefixOf blob.mime ∧ blob.content ≠ [] then
        SourceHandlerResult.Passthrough blob
      else if ("text".toList).isPrefixOf blob.mime ∧ blob.content ≠ [] then
        finish_page files req_path (utf8Decode blob.content)
          (".rs".toList.isSuffixOf blob.path)
      else finish_page files req_path none false
    | none => finish_page files req_path none false

/-- The non-strict order induced by the comparator: `a` need not come
after `b` (`fileCmp a b ≠ Ordering.gt`). -/
def fileLe (a b : File) : Prop := fileCmp a b ≠ Ordering.gt

/-- The ordering property claimed of a listing: a file entry is never
followed by a directory entry, and inside one partition the lowercased
names are non-decreasing. -/
def dirs_before_files (a b : File) : Prop :=
  (a.mime ≠ dirMime → b.mime ≠ dirMime) ∧
    ((a.mime = dirMime ↔ b.mime = dirMime) →
      strCmp (strToLower a.name) (strToLower b.name) ≠ Ordering.gt)

theorem strCmp_gt_asymm : ∀ (x y : Str), strCmp x y = Ordering.gt → strCmp y x ≠ Ordering.gt := by
  intro x
  induction x with
  | nil =>
    intro y h
    cases y <;> simp [strCmp] at h
  | cons a as ih =>
    intro y h
    cases y with
    | nil => simp [strCmp]
    | cons b bs =>
      simp only [strCmp] at h ⊢
      rcases lt_trichotomy a b with hab | hab | hab
      · rw [if_pos hab] at h
        exact absurd h (by simp)
      · subst hab
        rw [if_neg (lt_irrefl a), if_neg (lt_irrefl a)] at h ⊢
        exact ih bs h
      · rw [if_pos hab]
        simp

theorem strCmp_le_trans :
    ∀ (x y z : Str), strCmp x y ≠ Ordering.gt → strCmp y z ≠ Ordering.gt →
      strCmp x z ≠ Ordering.gt := by
  intro x
  induction x with
  | nil =>
    intro y z _ _
    cases z <;> simp [strCmp]
  | cons a as ih =>
    intro y z h1 h2
    cases y with
    | nil => exact absurd (show strCmp (a :: as) [] = Ordering.gt from rfl) h1
    | cons b bs =>
      cases z with
      | nil => exact absurd (show strCmp (b :: bs) [] = Ordering.gt from rfl) h2
      | cons c cs =>
        simp only [strCmp] at h1 h2 ⊢
        rcases lt_trichotomy a b with hab | hab | hab
        · rcases lt_trichotomy b c with hbc | hbc | hbc
          · rw [if_pos (lt_trans hab hbc)]; simp
          · subst hbc; rw [if_pos hab]; simp
          · rw [if_neg (lt_asymm hbc), if_pos hbc] at h2
            exact absurd rfl h2
        · subst hab
          rcases lt_trichotomy a c with hac | hac | hac
          · rw [if_pos hac]; simp
          · subst hac
            rw [if_neg (lt_irrefl a), if_neg (lt_irrefl a)] at h1 h2 ⊢
            exact ih bs cs h1 h2
          · rw [if_neg (lt_asymm hac), if_pos hac] at h2
            exact absurd rfl h2
        · rw [if_neg (lt_asymm hab), if_pos hab] at h1
          exact absurd rfl h1

theorem strCmp_le_total (x y : Str) :
    strCmp x y ≠ Ordering.gt ∨ strCmp y x ≠ Ordering.gt := by
  by_cases h : strCmp x y = Ordering.gt
  · exact Or.inr (strCmp_gt_asymm x y h)
  · exact Or.inl h

theorem fileCmp_le_total (a b : File) : fileLe a b ∨ fileLe b a := by
  unfold fileLe fileCmp
  by_cases ha : a.mime = dirMime <;> by_cases hb : b.mime = dirMime
  · simp only [ha, hb, ne_eq, not_true_eq_false, and_false, false_and, if_false]
    exact strCmp_le_total _ _
  · left
    rw [if_pos ⟨ha, hb⟩]
    simp
  · right
    rw [if_pos ⟨hb, ha⟩]
    simp
  · simp only [ha, hb, ne_eq, false_and, and_false, if_false]
    exact strCmp_le_total _ _

theorem fileCmp_le_trans (a b c : File) (h1 : fileLe a b) (h2 : fileLe b c) :
    fileLe a c := by
  unfold fileLe fileCmp at h1 h2 ⊢
  by_cases ha : a.mime = dirMime <;> by_cases hb : b.mime = dirMime <;>
    by_cases hc : c.mime = dirMime
  · simp only [ha, hb, hc, ne_eq, not_true_eq_false, and_false, false_and, if_false] at h1 h2 ⊢
    exact strCmp_le_trans _ _ _ h1 h2
  · rw [if_pos ⟨ha, hc⟩]
    simp
  · rw [if_neg (by simp [hb]), if_pos ⟨hb, hc⟩] at h2
    exact absurd rfl h2
  · rw [if_pos ⟨ha, hc⟩]
    simp
  · rw [if_neg (by simp [ha]), if_pos ⟨ha, hb⟩] at h1
    exact absurd rfl h1
  · rw [if_neg (by simp [ha]), if_pos ⟨ha, hb⟩] at h1
    exact absurd rfl h1
  · rw [if_neg (by simp [hb]), if_pos ⟨hb, hc⟩] at h2
    exact absurd rfl h2
  · simp only [ha, hb, hc, ne_eq, false_and, and_false, if_false] at h1 h2 ⊢
    exact strCmp_le_trans _ _ _ h1 h2

theorem mem_insertS (a x : File) (l : List File) :
    x ∈ insertS a l ↔ x = a ∨ x ∈ l := by
  induction l with
  | nil => simp [insertS]
  | cons b l ih =>
    simp only [insertS]
    split
    · simp only [List.mem_cons, ih]
      tauto
    · simp only [List.mem_cons]

theorem pairwise_insertS (a : File) (l : List File) (h : l.Pairwise fileLe) :
    (insertS a l).Pairwise fileLe := by
  induction l with
  | nil => simp [insertS]
  | cons b l ih =>
    rcases List.pairwise_cons.mp h with ⟨hb, hl⟩
    simp only [insertS]
    split
    case isTrue hgt =>
      refine List.pairwise_cons.mpr ⟨?_, ih hl⟩
      intro x hx
      rcases (mem_insertS a x l).mp hx with rfl | hx
      · rcases fileCmp_le_total x b with h' | h'
        · exact absurd hgt h'
        · exact h'
      · exact hb x hx
    case isFalse hng =>
      have hab : fileLe a b := hng
      refine List.pairwise_cons.mpr ⟨?_, h⟩
      intro x hx
      rcases List.mem_cons.mp hx with rfl | hx
      · exact hab
      · exact fileCmp_le_trans a b x hab (hb x hx)

theorem pairwise_sortFiles (l : List File) : (sortFiles l).Pairwise fileLe := by
  induction l with
  | nil => simp [sortFiles]
  | cons a l ih => exact pairwise_insertS a (sortFiles l) ih

theorem insertS_perm (a : File) (l : List File) : (insertS a l).Perm (a :: l) := by
  induction l with
  | nil => exact List.Perm.refl _
  | cons b l ih =>
    simp only [insertS]
    split
    · exact (ih.cons b).trans (List.Perm.swap a b l)
    · exact List.Perm.refl _

theorem sortFiles_perm (l : List File) : (sortFiles l).Perm l := by
  induction l with
  | nil => exact List.Perm.refl _
  | cons a l ih => exact (insertS_perm a (sortFiles l)).trans (ih.cons a)

theorem mem_from_path_step (p : Str) (acc : List File) (e : Str × Str) (f : File) :
    f ∈ from_path_step p acc e ↔
      f ∈ acc ∨ (e.2 ≠ cargoOk ∧ p.isPrefixOf e.2 = true ∧ f = candidate p e.1 e.2) := by
  unfold from_path_step
  split
  case isTrue h => simp [h]
  case isFalse h =>
    split
    case isTrue h2 =>
      dsimp only
      split
      case isTrue h3 =>
        constructor
        · tauto
        · rintro (hf | ⟨-, -, rfl⟩)
          · exact hf
          · exact h3
      case isFalse h3 =>
        simp only [List.mem_append, List.mem_singleton]
        constructor
        · rintro (hf | rfl)
          · tauto
          · exact Or.inr ⟨h, h2, rfl⟩
        · rintro (hf | ⟨-, -, rfl⟩)
          · exact Or.inl hf
          · exact Or.inr rfl
    case isFalse h2 =>
      simp [h2]

theorem mem_foldl_step (p : Str) (files : List (Str × Str)) :
    ∀ (acc : List File) (f : File),
      f ∈ files.foldl (from_path_step p) acc ↔
        f ∈ acc ∨ ∃ e, e ∈ files ∧ e.2 ≠ cargoOk ∧ p.isPrefixOf e.2 = true ∧
          f = candidate p e.1 e.2 := by
  induction files with
  | nil => simp
  | cons e rest ih =>
    intro acc f
    simp only [List.foldl_cons]
    rw [ih, mem_from_path_step]
    constructor
    · rintro ((hf | ⟨h1, h2, h3⟩) | ⟨e1, he1, h1, h2, h3⟩)
      · exact Or.inl hf
      · exact Or.inr ⟨e, List.mem_cons_self e rest, h1, h2, h3⟩
      · exact Or.inr ⟨e1, List.mem_cons_of_mem e he1, h1, h2, h3⟩
    · rintro (hf | ⟨e1, he1, h1, h2, h3⟩)
      · exact Or.inl (Or.inl hf)
      · rcases List.mem_cons.mp he1 with rfl | he1
        · exact Or.inl (Or.inr ⟨h1, h2, h3⟩)
        · exact Or.inr ⟨e1, he1, h1, h2, h3⟩

theorem nodup_foldl_step (p : Str) (files : List (Str × Str)) :
    ∀ acc : List File, acc.Nodup → (files.foldl (from_path_step p) acc).Nodup := by
  induction files with
  | nil =>
    intro acc hacc
    simpa using hacc
  | cons e rest ih =>
    intro acc hacc
    simp only [List.foldl_cons]
    apply ih
    unfold from_path_step
    split
    · exact hacc
    split
    · dsimp only
      split
      case isTrue h => exact hacc
      case isFalse h =>
        rw [List.nodup_append]
        exact ⟨hacc, List.nodup_singleton _, by
          intro x hx hx2
          rw [List.mem_singleton] at hx2
          subst hx2
          exact h hx⟩
    · exact hacc

theorem removeAllAux_of_no_occurrence :
    ∀ (fuel : Nat) (s pat : Str), hasSub s pat = false → s.length ≤ fuel →
      removeAllAux fuel s pat = s := by
  intro fuel
  induction fuel with
  | zero =>
    intro s pat _ hle
    cases s with
    | nil => rfl
    | cons c rest => simp at hle
  | succ n ih =>
    intro s pat h hle
    cases s with
    | nil => rfl
    | cons c rest =>
      unfold hasSub at h
      rw [Bool.or_eq_false_iff] at h
      unfold removeAllAux
      rw [if_neg (by
        rintro ⟨-, hp⟩
        rw [h.1] at hp
        exact Bool.false_ne_true hp)]
      rw [ih rest pat h.2 (by simpa using Nat.le_of_succ_le_succ hle)]

theorem removeAll_of_no_occurrence (s pat : Str) (h : hasSub s pat = false) :
    removeAll s pat = s :=
  removeAllAux_of_no_occurrence s.length s pat h (Nat.le_refl _)

theorem fileLe_imp_dirs_before (a b : File) (h : fileLe a b) : dirs_before_files a b := by
  unfold fileLe fileCmp at h
  unfold dirs_before_files
  by_cases ha : a.mime = dirMime <;> by_cases hb : b.mime = dirMime
  · refine ⟨fun hna => absurd ha hna, fun _ => ?_⟩
    simpa only [ha, hb, ne_eq, not_true_eq_false, and_false, false_and, if_false] using h
  · rw [if_pos ⟨ha, hb⟩] at h
    exact ⟨fun hna => absurd ha hna, fun hiff => absurd (hiff.mp ha) hb⟩
  · rw [if_neg (by simp [ha]), if_pos ⟨ha, hb⟩] at h
    exact absurd rfl h
  · refine ⟨fun _ => hb, fun _ => ?_⟩
    simpa only [ha, hb, ne_eq, false_and, and_false, if_false] using h

theorem foldl_step_filter_cargo_ok (p : Str) (files : List (Str × Str)) :
    ∀ acc : List File,
      (files.filter (fun e => decide (e.2 ≠ cargoOk))).foldl (from_path_step p) acc =
        files.foldl (from_path_step p) acc := by
  induction files with
  | nil => intro acc; rfl
  | cons e rest ih =>
    intro acc
    by_cases h : e.2 = cargoOk
    · rw [List.filter_cons_of_neg (by simp [h])]
      rw [List.foldl_cons]
      rw [show from_path_step p acc e = acc from by unfold from_path_step; rw [if_pos h]]
      exact ih acc
    · rw [List.filter_cons_of_pos (by simp [h])]
      rw [List.foldl_cons, List.foldl_cons]
      exact ih _

/-- Claim C1 counterexample: the code skips an entry only when its full
path is the literal `".cargo-ok"`.  The manifest path `"sub/.cargo-ok"` is
not skipped: the listing for prefix `"sub/"` contains an entry literally
named `".cargo-ok"`, contradicting the claim that such an entry never
appears at any depth. -/
theorem cargo_ok_nested_appears :
    from_path [("text/plain".toList, "sub/.cargo-ok".toList)] ("sub/".toList) =
      some [⟨".cargo-ok".toList, "text/plain".toList⟩] := by decide

/-- Claim C1 (amended): the marker exclusion applies exactly to manifest
entries whose full path is the literal `".cargo-ok"` — removing all such
entries from the manifest never changes any produced listing, for every
manifest and every prefix.  (A nested `sub/.cargo-ok` is not excluded, as
the counterexample shows.) -/
theorem cargo_ok_exact_path_never_contributes (files : List (Str × Str)) (p : Str) :
    from_path (files.filter (fun e => decide (e.2 ≠ cargoOk))) p = from_path files p := by
  unfold from_path
  rw [foldl_step_filter_cargo_ok]

/-- Claim C2 counterexample: for manifest path `"src/src/lib.rs"` and
prefix `"src/"` the code removes every occurrence of the prefix
(`str::replace`), producing the direct file entry `lib.rs` with its true
mime — not the synthetic directory entry `src` that front-only stripping
would give. -/
theorem replace_all_counterexample :
    from_path [("text/x-rust".toList, "src/src/lib.rs".toList)] ("src/".toList) =
        some [⟨"lib.rs".toList, "text/x-rust".toList⟩] ∧
      (⟨"src".toList, dirMime⟩ : File) ∉
        [(⟨"lib.rs".toList, "text/x-rust".toList⟩ : File)] := by decide

/-- Claim C2 (amended): the remainder is computed by deleting every
occurrence of the prefix from the path (`replace`), not by stripping it
from the front only; on that remainder the split rule is as claimed.  The
theorem characterises listing membership: the entries of a produced
listing are exactly the `candidate`s of the surviving manifest entries. -/
theorem listing_entry_characterization (files : List (Str × Str)) (p : Str)
    (fl : List File) (h : from_path files p = some fl) (f : File) :
    f ∈ fl ↔ ∃ e, e ∈ files ∧ e.2 ≠ cargoOk ∧ p.isPrefixOf e.2 = true ∧
      f = candidate p e.1 e.2 := by
  unfold from_path at h
  dsimp only at h
  by_cases hl : files.foldl (from_path_step p) [] = []
  · rw [if_pos hl] at h
    cases h
  · rw [if_neg hl] at h
    have h2 := Option.some.inj h
    rw [← h2, (sortFiles_perm _).mem_iff, mem_foldl_step]
    simp

/-- Claim C2 witness: the characterisation applied to the counterexample
manifest, exhibiting the `lib.rs` entry as the candidate of
`"src/src/lib.rs"`. -/
theorem listing_entry_characterization_w :
    (⟨"lib.rs".toList, "text/x-rust".toList⟩ : File) ∈
      [(⟨"lib.rs".toList, "text/x-rust".toList⟩ : File)] :=
  (listing_entry_characterization [("text/x-rust".toList, "src/src/lib.rs".toList)]
      ("src/".toList) [⟨"lib.rs".toList, "text/x-rust".toList⟩] (by decide)
      ⟨"lib.rs".toList, "text/x-rust".toList⟩).mpr
    ⟨("text/x-rust".toList, "src/src/lib.rs".toList), by decide, by decide, by decide,
      by decide⟩

/-- Claim C3: `FileList::from_path` returns `None` if and only if, after
excluding the `.cargo-ok` marker, no manifest entry has a path starting
with the requested prefix; and a produced listing is never empty. -/
theorem absent_iff_no_matching_entry (files : List (Str × Str)) (p : Str) :
    (from_path files p = none ↔
        ∀ e ∈ files, e.2 = cargoOk ∨ p.isPrefixOf e.2 = false) ∧
      ∀ fl, from_path files p = some fl → fl ≠ [] := by
  constructor
  · unfold from_path
    dsimp only
    by_cases hl : files.foldl (from_path_step p) [] = []
    · rw [if_pos hl]
      refine iff_of_true rfl ?_
      intro e he
      by_contra hc
      push_neg at hc
      have hmem := (mem_foldl_step p files [] (candidate p e.1 e.2)).mpr
        (Or.inr ⟨e, he, hc.1, by simpa using hc.2, rfl⟩)
      rw [hl] at hmem
      exact absurd hmem (List.not_mem_nil _)
    · rw [if_neg hl]
      refine iff_of_false (by simp) ?_
      intro hall
      apply hl
      rw [List.eq_nil_iff_forall_not_mem]
      intro f hf
      rcases (mem_foldl_step p files [] f).mp hf with hf0 | ⟨e, he, h1, h2, -⟩
      · exact absurd hf0 (List.not_mem_nil _)
      · rcases hall e he with h | h
        · exact h1 h
        · simp [h] at h2
  · intro fl h
    unfold from_path at h
    dsimp only at h
    by_cases hl : files.foldl (from_path_step p) [] = []
    · rw [if_pos hl] at h
      cases h
    · rw [if_neg hl] at h
      have h2 := Option.some.inj h
      intro hfl
      apply hl
      have hp := sortFiles_perm (files.foldl (from_path_step p) [])
      rw [h2, hfl] at hp
      exact hp.symm.eq_nil

/-- Claim C3 witness: a one-entry manifest at the root prefix produces a
nonempty listing. -/
theorem absent_iff_no_matching_entry_w :
    ([(⟨"README.md".toList, "text/plain".toList⟩ : File)] : List File) ≠ [] :=
  (absent_iff_no_matching_entry [("text/plain".toList, "README.md".toList)] []).2
    [⟨"README.md".toList, "text/plain".toList⟩] (by decide)

/-- Claim C5: every produced listing is sorted — no file entry precedes a
directory entry, and within each partition names are non-decreasing under
lowercased comparison.  The function is deterministic by construction
(it is a pure function of the manifest and the prefix). -/
theorem listing_sorted (files : List (Str × Str)) (p : Str) (fl : List File)
    (h : from_path files p = some fl) : fl.Pairwise dirs_before_files := by
  unfold from_path at h
  dsimp only at h
  by_cases hl : files.foldl (from_path_step p) [] = []
  · rw [if_pos hl] at h
    cases h
  · rw [if_neg hl] at h
    rw [← Option.some.inj h]
    exact (pairwise_sortFiles _).imp (fun hab => fileLe_imp_dirs_before _ _ hab)

/-- Claim C5 witness: the listing of a two-entry manifest at the root,
with the synthetic `src` directory sorted before the `README.md` file. -/
theorem listing_sorted_w :
    List.Pairwise dirs_before_files
      [⟨"src".toList, dirMime⟩, ⟨"README.md".toList, "text/plain".toList⟩] :=
  listing_sorted
    [("text/plain".toList, "README.md".toList), ("text/x-rust".toList, "src/lib.rs".toList)]
    [] [⟨"src".toList, dirMime⟩, ⟨"README.md".toList, "text/plain".toList⟩] (by decide)

/-- Claim C6: a produced listing never contains two entries with the same
`(name, mime)` pair — the duplicate check of the loop is preserved by the
final sort, which is a permutation. -/
theorem listing_nodup (files : List (Str × Str)) (p : Str) (fl : List File)
    (h : from_path files p = some fl) : fl.Nodup := by
  unfold from_path at h
  dsimp only at h
  by_cases hl : files.foldl (from_path_step p) [] = []
  · rw [if_pos hl] at h
    cases h
  · rw [if_neg hl] at h
    rw [← Option.some.inj h]
    exact (sortFiles_perm _).symm.nodup (nodup_foldl_step p files [] List.nodup_nil)

/-- Claim C6 witness: two manifest entries sharing the sub-directory `src`
collapse to the single directory entry, which is trivially duplicate-free. -/
theorem listing_nodup_w : List.Nodup [(⟨"src".toList, dirMime⟩ : File)] :=
  listing_nodup
    [("text/x-rust".toList, "src/a.rs".toList), ("text/x-rust".toList, "src/b.rs".toList)]
    [] [⟨"src".toList, dirMime⟩] (by decide)

theorem finish_page_ne_redirect (files : List (Str × Str)) (rp : Str)
    (fc : Option Str) (irs : Bool) (u : Str) :
    finish_page files rp fc irs ≠ SourceHandlerResult.Redirect u := by
  unfold finish_page
  cases from_path files rp <;> simp

/-- Claim C9 counterexample: with crate `a`, version `1` and request
remainder `a/1/x.rs`, the blanked-and-joined remainder is `"a/1/"`, but
the code additionally deletes every occurrence of `"{name}/{version}/"`
from it, so the directory prefix becomes `""` instead of `"a/1/"` — a
further transformation the claim rules out. -/
theorem derived_paths_counterexample :
    derived_paths
        ["crate".toList, "a".toList, "1".toList, "source".toList,
          "a".toList, "1".toList, "x.rs".toList] "a".toList "1".toList =
      (([] : Str), "a/1/x.rs".toList) ∧ "a/1/".toList ≠ ([] : Str) := by decide

/-- Claim C9 (amended): the file path is always the full remainder joined
with `/`; the directory prefix is the remainder with its final nonempty
segment blanked, joined — except that every occurrence of the substring
`"{crate_name}/{version}/"` is then deleted from it.  When that substring
does not occur, both derived paths are exactly as the claim states. -/
theorem derived_paths_spec (url_path : List Str) (crate_name version : Str)
    (h : hasSub (joinSlash (blankLast (url_path.drop 4)))
        (crate_name ++ ['/'] ++ version ++ ['/']) = false) :
    derived_paths url_path crate_name version =
      (joinSlash (blankLast (url_path.drop 4)), joinSlash (url_path.drop 4)) := by
  unfold derived_paths
  dsimp only
  rw [removeAll_of_no_occurrence _ _ h]

/-- Claim C9 witness: a typical request for `src/lib.rs` of crate `foo`
version `1.0`, where the two derived paths are `"src/"` and
`"src/lib.rs"`. -/
theorem derived_paths_spec_w :
    derived_paths ["crate".toList, "foo".toList, "1.0".toList, "source".toList,
        "src".toList, "lib.rs".toList] "foo".toList "1.0".toList =
      ("src/".toList, "src/lib.rs".toList) :=
  (derived_paths_spec
      ["crate".toList, "foo".toList, "1.0".toList, "source".toList,
        "src".toList, "lib.rs".toList] "foo".toList "1.0".toList (by decide)).trans
    (by decide)

/-- Claim C4 counterexample: a request whose name resolves through the
`-`/`_` typo correction but whose version is an exact stored release does
not redirect — the handler continues under the corrected name (here to a
not-found, the manifest being empty), so a relaxed name resolution alone
never terminates with a redirect. -/
theorem typo_exact_no_redirect :
    source_browser_handler
        ["crate".toList, "foo_bar".toList, "1.0.0".toList, "source".toList, ([] : Str)]
        "foo_bar".toList
        ⟨some "foo-bar".toList, MatchSemver.Exact ("1.0.0".toList, 0)⟩
        [] none = SourceHandlerResult.NotFound := by decide

/-- Claim C4 (amended): the handler terminates with a redirect exactly for
the semver-range resolutions: a `Semver` match redirects to the canonical
URL built from the (typo-corrected, when present) name and the resolved
version, with the trailing sub-path of the request preserved exactly as a
suffix; an `Exact` match never produces a redirect, even when a corrected
name is present. -/
theorem semver_redirect_preserves_subpath (url_path : List Str) (crate_name0 : Str)
    (v : MatchVersion) (files : List (Str × Str)) (fetch : Option Blob) :
    (∀ version id, v.version = MatchSemver.Semver (version, id) →
      source_browser_handler url_path crate_name0 v files fetch =
          SourceHandlerResult.Redirect
            (redirect_url (v.corrected_name.getD crate_name0) version (url_path.drop 4)) ∧
        (joinSlash (url_path.drop 4)).isSuffixOf
          (redirect_url (v.corrected_name.getD crate_name0) version (url_path.drop 4)) = true) ∧
    (∀ version id u, v.version = MatchSemver.Exact (version, id) →
      source_browser_handler url_path crate_name0 v files fetch ≠
        SourceHandlerResult.Redirect u) := by
  obtain ⟨cn, vv⟩ := v
  constructor
  · intro version id h
    dsimp only at h
    subst h
    constructor
    · rfl
    · rw [List.isSuffixOf_iff_suffix]
      exact ⟨"/crate/".toList ++ (cn.getD crate_name0) ++ "/".toList ++ version ++
        "/source/".toList, by simp [redirect_url, List.append_assoc]⟩
  · intro version id u h
    dsimp only at h
    subst h
    simp only [source_browser_handler]
    split
    · split
      · simp
      · split
        · exact finish_page_ne_redirect _ _ _ _ _
        · exact finish_page_ne_redirect _ _ _ _ _
    · exact finish_page_ne_redirect _ _ _ _ _

/-- Claim C4 witness: a wildcard version resolved to `0.2.0` redirects to
the canonical URL, whose path ends with the request's trailing sub-path
`src/lib.rs`. -/
theorem semver_redirect_preserves_subpath_w :
    source_browser_handler
        ["crate".toList, "mbedtls".toList, "*".toList, "source".toList,
          "src".toList, "lib.rs".toList]
        "mbedtls".toList ⟨none, MatchSemver.Semver ("0.2.0".toList, 0)⟩ [] none =
        SourceHandlerResult.Redirect
          (redirect_url
            ((none : Option Str).getD "mbedtls".toList) "0.2.0".toList
            (["crate".toList, "mbedtls".toList, "*".toList, "source".toList,
              "src".toList, "lib.rs".toList].drop 4)) ∧
      (joinSlash (["crate".toList, "mbedtls".toList, "*".toList, "source".toList,
          "src".toList, "lib.rs".toList].drop 4)).isSuffixOf
        (redirect_url
          ((none : Option Str).getD "mbedtls".toList) "0.2.0".toList
          (["crate".toList, "mbedtls".toList, "*".toList, "source".toList,
            "src".toList, "lib.rs".toList].drop 4)) = true :=
  (semver_redirect_preserves_subpath
      ["crate".toList, "mbedtls".toList, "*".toList, "source".toList,
        "src".toList, "lib.rs".toList]
      "mbedtls".toList ⟨none, MatchSemver.Semver ("0.2.0".toList, 0)⟩ [] none).1
    "0.2.0".toList 0 rfl

/-- Claim C7: when the fetched blob is non-text and nonempty, the handler
returns the raw passthrough of that blob, for every manifest — the
listing is never consulted, even when it would be absent. -/
theorem passthrough_short_circuit (url_path : List Str) (crate_name0 : Str)
    (v : MatchVersion) (files : List (Str × Str)) (fetch : Option Blob) (blob : Blob)
    (version : Str) (id : Int)
    (hv : v.version = MatchSemver.Exact (version, id))
    (hnd : (['/'] : Str).isSuffixOf (joinSlash (url_path.drop 4)) = false)
    (hf : fetch = some blob)
    (hm : ("text".toList).isPrefixOf blob.mime = false)
    (hne : blob.content ≠ []) :
    source_browser_handler url_path crate_name0 v files fetch =
      SourceHandlerResult.Passthrough blob := by
  obtain ⟨cn, vv⟩ := v
  dsimp only at hv
  subst hv
  simp only [source_browser_handler]
  rw [show (derived_paths url_path (cn.getD crate_name0) version).2 =
    joinSlash (url_path.drop 4) from rfl]
  rw [if_pos (by rw [hnd]; exact Bool.false_ne_true), hf]
  dsimp only
  rw [if_pos ⟨by rw [hm]; exact Bool.false_ne_true, hne⟩]

/-- Claim C7 witness: a nonempty PNG blob is served raw even though the
manifest (a single unrelated entry) has no listing for the request. -/
theorem passthrough_short_circuit_w :
    source_browser_handler
        ["crate".toList, "foo".toList, "1.0.0".toList, "source".toList, "img.png".toList]
        "foo".toList ⟨none, MatchSemver.Exact ("1.0.0".toList, 0)⟩
        [("a".toList, "b".toList)]
        (some ⟨"img.png".toList, "image/png".toList, [1, 2]⟩) =
      SourceHandlerResult.Passthrough ⟨"img.png".toList, "image/png".toList, [1, 2]⟩ :=
  passthrough_short_circuit
    ["crate".toList, "foo".toList, "1.0.0".toList, "source".toList, "img.png".toList]
    "foo".toList ⟨none, MatchSemver.Exact ("1.0.0".toList, 0)⟩
    [("a".toList, "b".toList)]
    (some ⟨"img.png".toList, "image/png".toList, [1, 2]⟩)
    ⟨"img.png".toList, "image/png".toList, [1, 2]⟩
    "1.0.0".toList 0 rfl (by decide) rfl (by decide) (by decide)

/-- Claim C8: a successful fetch of nonempty, decodable text content does
not override an absent listing — the handler still terminates with the
not-found error. -/
theorem absent_wins_over_text (url_path : List Str) (crate_name0 : Str)
    (v : MatchVersion) (files : List (Str × Str)) (fetch : Option Blob) (blob : Blob)
    (version s : Str) (id : Int)
    (hv : v.version = MatchSemver.Exact (version, id))
    (hnd : (['/'] : Str).isSuffixOf (joinSlash (url_path.drop 4)) = false)
    (hf : fetch = some blob)
    (hm : ("text".toList).isPrefixOf blob.mime = true)
    (hne : blob.content ≠ [])
    (hdec : utf8Decode blob.content = some s)
    (habs : from_path files
        (derived_paths url_path (v.corrected_name.getD crate_name0) version).1 = none) :
    source_browser_handler url_path crate_name0 v files fetch =
      SourceHandlerResult.NotFound := by
  obtain ⟨cn, vv⟩ := v
  dsimp only at hv habs
  subst hv
  simp only [source_browser_handler]
  rw [show (derived_paths url_path (cn.getD crate_name0) version).2 =
    joinSlash (url_path.drop 4) from rfl]
  rw [if_pos (by rw [hnd]; exact Bool.false_ne_true), hf]
  dsimp only
  rw [if_neg (by rintro ⟨h1, -⟩; exact h1 hm)]
  rw [if_pos ⟨hm, hne⟩]
  unfold finish_page
  rw [habs]

/-- Claim C8 witness: readable text `"hi"` under a release with an empty
manifest is still a not-found. -/
theorem absent_wins_over_text_w :
    source_browser_handler
        ["crate".toList, "foo".toList, "1.0.0".toList, "source".toList, "a.txt".toList]
        "foo".toList ⟨none, MatchSemver.Exact ("1.0.0".toList, 0)⟩ []
        (some ⟨"a.txt".toList, "text/plain".toList, [104, 105]⟩) =
      SourceHandlerResult.NotFound :=
  absent_wins_over_text
    ["crate".toList, "foo".toList, "1.0.0".toList, "source".toList, "a.txt".toList]
    "foo".toList ⟨none, MatchSemver.Exact ("1.0.0".toList, 0)⟩ []
    (some ⟨"a.txt".toList, "text/plain".toList, [104, 105]⟩)
    ⟨"a.txt".toList, "text/plain".toList, [104, 105]⟩
    "1.0.0".toList "hi".toList 0 rfl (by decide) rfl (by decide) (by decide)
    (by decide) (by decide)

/-- Claim C10: for a text-mime, nonempty blob whose bytes are not valid
UTF-8 and whose path ends in `.rs`, the handler still renders the listing
page, with no inline content but with the Rust-source flag set — the flag
is computed from the path extension alone. -/
theorem invalid_utf8_rust_flag (url_path : List Str) (crate_name0 : Str)
    (v : MatchVersion) (files : List (Str × Str)) (fetch : Option Blob) (blob : Blob)
    (version : Str) (id : Int) (fl : List File)
    (hv : v.version = MatchSemver.Exact (version, id))
    (hnd : (['/'] : Str).isSuffixOf (joinSlash (url_path.drop 4)) = false)
    (hf : fetch = some blob)
    (hm : ("text".toList).isPrefixOf blob.mime = true)
    (hne : blob.content ≠ [])
    (hdec : utf8Decode blob.content = none)
    (hrs : ".rs".toList.isSuffixOf blob.path = true)
    (hsome : from_path files
        (derived_paths url_path (v.corrected_name.getD crate_name0) version).1 = some fl) :
    source_browser_handler url_path crate_name0 v files fetch =
      SourceHandlerResult.Page
        { file_list := fl
          show_parent_link :=
            !(derived_paths url_path (v.corrected_name.getD crate_name0) version).1.isEmpty
          file_content := none
          is_rust_source := true } := by
  obtain ⟨cn, vv⟩ := v
  dsimp only at hv hsome ⊢
  subst hv
  simp only [source_browser_handler]
  rw [show (derived_paths url_path (cn.getD crate_name0) version).2 =
    joinSlash (url_path.drop 4) from rfl]
  rw [if_pos (by rw [hnd]; exact Bool.false_ne_true), hf]
  dsimp only
  rw [if_neg (by rintro ⟨h1, -⟩; exact h1 hm)]
  rw [if_pos ⟨hm, hne⟩]
  unfold finish_page
  rw [hdec, hrs, hsome]

/-- Claim C10 witness: the byte `0xFF` under mime `text/x-rust` and path
`main.rs` renders the root listing with no inline content and the
Rust-source flag set. -/
theorem invalid_utf8_rust_flag_w :
    source_browser_handler
        ["crate".toList, "foo".toList, "1.0.0".toList, "source".toList, "main.rs".toList]
        "foo".toList ⟨none, MatchSemver.Exact ("1.0.0".toList, 0)⟩
        [("text/x-rust".toList, "main.rs".toList)]
        (some ⟨"main.rs".toList, "text/x-rust".toList, [255]⟩) =
      SourceHandlerResult.Page
        { file_list := [⟨"main.rs".toList, "text/x-rust".toList⟩]
          show_parent_link := false
          file_content := none
          is_rust_source := true } :=
  (invalid_utf8_rust_flag
      ["crate".toList, "foo".toList, "1.0.0".toList, "source".toList, "main.rs".toList]
      "foo".toList ⟨none, MatchSemver.Exact ("1.0.0".toList, 0)⟩
      [("text/x-rust".toList, "main.rs".toList)]
      (some ⟨"main.rs".toList, "text/x-rust".toList, [255]⟩)
      ⟨"main.rs".toList, "text/x-rust".toList, [255]⟩
      "1.0.0".toList 0 [⟨"main.rs".toList, "text/x-rust".toList⟩] rfl (by decide) rfl
      (by decide) (by decide) (by decide) (by decide) (by decide)).trans
    (by decide)
